import Mathlib

/-!
Formal model of the core of the tne-lab ica-plugin repository
(ICA/Source/ICANode.cpp and ICA/Source/ICANode.h).

Modelling conventions:
* float samples and matrix entries are modelled as exact rationals;
* a juce AudioSampleBuffer is modelled as a function from channel index and
  sample index to a rational sample value;
* lock acquisition is modelled as successful (a handle whose lock attempt
  failed performs no operation in the source, so the interesting behaviour
  is that of a valid handle);
* file system and external process interactions are modelled as explicit
  environment inputs recording whether each interaction succeeds.
-/

set_option maxHeartbeats 1000000

namespace ICA

/-- An audio buffer: channel index and sample index to sample value.
Models juce AudioSampleBuffer contents with rational samples. -/
def Buf : Type := ℕ → ℕ → ℚ

/-- Models AudioSampleBuffer.clear(ch, 0, n): zeroes samples 0..n-1 of channel ch. -/
def bufClear (b : Buf) (ch n : ℕ) : Buf :=
  fun c s => if c = ch ∧ s < n then 0 else b c s

/-- Models AudioSampleBuffer.addFrom(destCh, 0, src, srcCh, 0, n, gain):
adds gain times samples 0..n-1 of channel srcCh of src into channel destCh. -/
def bufAddFrom (dest : Buf) (destCh : ℕ) (src : Buf) (srcCh : ℕ) (n : ℕ) (gain : ℚ) : Buf :=
  fun c s => if c = destCh ∧ s < n then dest c s + gain * src srcCh s else dest c s

/-- Value of a fold of addFrom steps that all target one destination channel. -/
theorem foldl_addFrom_eval {α : Type} (nS : ℕ) (src : Buf) (d : ℕ) (sch : α → ℕ) (g : α → ℚ)
    (l : List α) : ∀ (b : Buf) (c s : ℕ),
    (l.foldl (fun acc k => bufAddFrom acc d src (sch k) nS (g k)) b) c s
      = b c s + if c = d ∧ s < nS then (l.map (fun k => g k * src (sch k) s)).sum else 0 := by
  induction l with
  | nil => intro b c s; simp
  | cons x xs ih =>
    intro b c s
    simp only [List.foldl_cons, List.map_cons, List.sum_cons]
    rw [ih]
    by_cases h : c = d ∧ s < nS
    · simp only [bufAddFrom, if_pos h, if_pos h]
      ring
    · simp only [bufAddFrom, if_neg h, if_neg h]

/-- Value of a fold of addFrom steps with varying destination channels that all
read one source channel. -/
theorem foldl_addFromVar_eval {α : Type} (nS : ℕ) (src : Buf) (srcCh : ℕ) (dch : α → ℕ)
    (g : α → ℚ) (l : List α) : ∀ (b : Buf) (c s : ℕ),
    (l.foldl (fun acc k => bufAddFrom acc (dch k) src srcCh nS (g k)) b) c s
      = b c s + if s < nS
          then ((l.filter (fun k => decide (dch k = c))).map g).sum * src srcCh s
          else 0 := by
  induction l with
  | nil => intro b c s; simp
  | cons x xs ih =>
    intro b c s
    simp only [List.foldl_cons]
    rw [ih]
    by_cases hsn : s < nS
    · rw [if_pos hsn, if_pos hsn]
      by_cases hx : dch x = c
      · have hcond : c = dch x ∧ s < nS := ⟨hx.symm, hsn⟩
        rw [List.filter_cons_of_pos (by simp [hx])]
        simp only [bufAddFrom, if_pos hcond, List.map_cons, List.sum_cons]
        ring
      · have hcond : ¬(c = dch x ∧ s < nS) := fun hcon => hx hcon.1.symm
        rw [List.filter_cons_of_neg (by simp [hx])]
        simp only [bufAddFrom, if_neg hcond]
    · rw [if_neg hsn, if_neg hsn]
      have hcond : ¬(c = dch x ∧ s < nS) := fun hcon => hsn hcon.2
      simp only [bufAddFrom, if_neg hcond]

/-- Value of a fold of clear steps. -/
theorem foldl_clear_eval {α : Type} (nS : ℕ) (dch : α → ℕ) (l : List α) :
    ∀ (b : Buf) (c s : ℕ),
    (l.foldl (fun acc k => bufClear acc (dch k) nS) b) c s
      = if (∃ k ∈ l, dch k = c) ∧ s < nS then 0 else b c s := by
  induction l with
  | nil => intro b c s; simp
  | cons x xs ih =>
    intro b c s
    simp only [List.foldl_cons]
    rw [ih]
    by_cases hmem : (∃ k ∈ xs, dch k = c) ∧ s < nS
    · have hcons : (∃ k ∈ x :: xs, dch k = c) ∧ s < nS := by
        obtain ⟨⟨k, hk, hdk⟩, hsn⟩ := hmem
        exact ⟨⟨k, List.mem_cons_of_mem x hk, hdk⟩, hsn⟩
      rw [if_pos hmem, if_pos hcons]
    · rw [if_neg hmem]
      by_cases hx : dch x = c ∧ s < nS
      · have hcons : (∃ k ∈ x :: xs, dch k = c) ∧ s < nS :=
          ⟨⟨x, List.mem_cons_self x xs, hx.1⟩, hx.2⟩
        rw [if_pos hcons]
        have hcl : c = dch x ∧ s < nS := ⟨hx.1.symm, hx.2⟩
        simp only [bufClear, if_pos hcl]
      · have hcond : ¬((∃ k ∈ x :: xs, dch k = c) ∧ s < nS) := by
          rintro ⟨⟨k, hk, hdk⟩, hsn⟩
          rcases List.mem_cons.mp hk with rfl | hk2
          · exact hx ⟨hdk, hsn⟩
          · exact hmem ⟨⟨k, hk2, hdk⟩, hsn⟩
        rw [if_neg hcond]
        have hcl : ¬(c = dch x ∧ s < nS) := by
          intro hcontra; exact hx ⟨hcontra.1.symm, hcontra.2⟩
        simp only [bufClear, if_neg hcl]

/-!
Model of the ICA application step of ICANode.process (ICANode.cpp lines 163-234).

The per-subprocessor data is abstracted as follows: n is the number of enabled
channels (equal to the number of components), U and M are the unmixing and
mixing matrices of the installed ICAOperation, rej is its set of rejected
components, and chan k stands for the buffer channel index
channelInds[enabledChannels[k]].  Both channelInds and enabledChannels are
juce SortedSets, hence strictly increasing, so the composite map chan is
injective; theorems take that injectivity as a hypothesis.
-/

/-- The list of component indices iterated by process(): in the additive case
all components with the rejected ones removed, otherwise the rejected
components, in ascending order matching juce SortedSet iteration. -/
def icaComps (n : ℕ) (rej : Finset (Fin n)) (additive : Bool) : List (Fin n) :=
  if additive then (List.finRange n).filter (fun i => decide (i ∉ rej))
  else (List.finRange n).filter (fun i => decide (i ∈ rej))

/-- The unmixing loop: for each worked component, clear its row of the
component buffer and accumulate the unmixing-weighted enabled channels
(ICANode.cpp lines 195-206). -/
def unmixPhase {n : ℕ} (U : Fin n → Fin n → ℚ) (chan : Fin n → ℕ) (nS : ℕ) (b : Buf)
    (comps : List (Fin n)) (cb : Buf) : Buf :=
  comps.foldl (fun acc comp =>
    (List.finRange n).foldl
      (fun acc2 k => bufAddFrom acc2 comp.val b (chan k) nS (U comp k))
      (bufClear acc comp.val nS)) cb

/-- The additive-path clearing loop: zero every enabled channel of the audio
buffer before adding kept components back in (ICANode.cpp lines 208-215). -/
def clearPhase {n : ℕ} (chan : Fin n → ℕ) (nS : ℕ) (b : Buf) : Buf :=
  (List.finRange n).foldl (fun acc k => bufClear acc (chan k) nS) b

/-- The remixing loop: accumulate each worked component back into the enabled
channels with the mixing matrix, adding when additive and subtracting
otherwise (ICANode.cpp lines 217-233). -/
def remixPhase {n : ℕ} (M : Fin n → Fin n → ℚ) (chan : Fin n → ℕ) (nS : ℕ) (additive : Bool)
    (cb : Buf) (comps : List (Fin n)) (b : Buf) : Buf :=
  comps.foldl (fun acc comp =>
    (List.finRange n).foldl
      (fun acc2 k => bufAddFrom acc2 (chan k) cb comp.val nS
        (if additive then M k comp else -(M k comp))) acc) b

/-- The ICA application step of process() on one subprocessor, for a given
choice of the additive flag. -/
def applyICA {n : ℕ} (M U : Fin n → Fin n → ℚ) (rej : Finset (Fin n)) (chan : Fin n → ℕ)
    (nS : ℕ) (b cb : Buf) (additive : Bool) : Buf :=
  let comps := icaComps n rej additive
  remixPhase M chan nS additive (unmixPhase U chan nS b comps cb) comps
    (if additive then clearPhase chan nS b else b)

/-- The ICA application step of process() with the additive flag chosen by the
rejection-count heuristic of ICANode.cpp line 176 (integer division as in
C++). -/
def processSubProc {n : ℕ} (M U : Fin n → Fin n → ℚ) (rej : Finset (Fin n))
    (chan : Fin n → ℕ) (nS : ℕ) (b cb : Buf) : Buf :=
  applyICA M U rej chan nS b cb (decide (n / 2 < rej.card))

/-- Filtering a nodup list for one of its members yields that singleton. -/
theorem filter_eq_singleton_of_nodup {α : Type} [DecidableEq α] :
    ∀ (l : List α), l.Nodup → ∀ a ∈ l, l.filter (fun x => decide (x = a)) = [a] := by
  intro l
  induction l with
  | nil => intro _ a ha; exact absurd ha (List.not_mem_nil a)
  | cons x xs ih =>
    intro hnd a ha
    rcases List.mem_cons.mp ha with rfl | ha2
    · rw [List.filter_cons_of_pos (by simp)]
      have hnotin : a ∉ xs := (List.nodup_cons.mp hnd).1
      have : xs.filter (fun x => decide (x = a)) = [] := by
        rw [List.filter_eq_nil_iff]
        intro b hb
        simp only [decide_eq_true_eq]
        intro hba; exact hnotin (hba ▸ hb)
      rw [this]
    · have hxa : x ≠ a := by
        intro hxa
        exact (List.nodup_cons.mp hnd).1 (hxa ▸ ha2)
      rw [List.filter_cons_of_neg (by simp [hxa])]
      exact ih (List.nodup_cons.mp hnd).2 a ha2

/-- Filtering finRange by equality of an injective channel map picks out one
index. -/
theorem filter_finRange_chan {n : ℕ} (chan : Fin n → ℕ) (hinj : Function.Injective chan)
    (k : Fin n) :
    (List.finRange n).filter (fun j => decide (chan j = chan k)) = [k] := by
  have hfun : (fun j : Fin n => decide (chan j = chan k)) = (fun j => decide (j = k)) := by
    funext j
    simp [hinj.eq_iff]
  rw [hfun]
  exact filter_eq_singleton_of_nodup (List.finRange n) (List.nodup_finRange n) k
    (List.mem_finRange k)

/-- The unmixing loop does not change component-buffer rows other than those
of the worked components. -/
theorem unmixPhase_notMem {n : ℕ} (U : Fin n → Fin n → ℚ) (chan : Fin n → ℕ) (nS : ℕ)
    (b : Buf) : ∀ (comps : List (Fin n)) (cb : Buf) (c s : ℕ),
    (∀ comp ∈ comps, comp.val ≠ c) →
    unmixPhase U chan nS b comps cb c s = cb c s := by
  intro comps
  induction comps with
  | nil => intro cb c s _; rfl
  | cons x xs ih =>
    intro cb c s hne
    unfold unmixPhase
    simp only [List.foldl_cons]
    rw [show ∀ cb2, List.foldl _ cb2 xs = unmixPhase U chan nS b xs cb2 from fun _ => rfl]
    rw [ih _ c s (fun comp hc => hne comp (List.mem_cons_of_mem x hc))]
    rw [foldl_addFrom_eval]
    have hx : x.val ≠ c := hne x (List.mem_cons_self x xs)
    have hcond : ¬(c = x.val ∧ s < nS) := fun hcon => hx hcon.1.symm
    rw [if_neg hcond, add_zero]
    simp only [bufClear, if_neg hcond]

/-- After the unmixing loop, the row of each worked component holds the
unmixing-matrix-weighted sum of the enabled channels. -/
theorem unmixPhase_eval {n : ℕ} (U : Fin n → Fin n → ℚ) (chan : Fin n → ℕ) (nS : ℕ)
    (b : Buf) : ∀ (comps : List (Fin n)) (cb : Buf) (comp : Fin n),
    comps.Nodup → comp ∈ comps → ∀ s, s < nS →
    unmixPhase U chan nS b comps cb comp.val s = ∑ k, U comp k * b (chan k) s := by
  intro comps
  induction comps with
  | nil => intro cb comp _ hmem; exact absurd hmem (List.not_mem_nil comp)
  | cons x xs ih =>
    intro cb comp hnd hmem s hs
    unfold unmixPhase
    simp only [List.foldl_cons]
    rw [show ∀ cb2, List.foldl _ cb2 xs = unmixPhase U chan nS b xs cb2 from fun _ => rfl]
    rcases List.mem_cons.mp hmem with rfl | hmem2
    · have hrest : ∀ c2 ∈ xs, c2.val ≠ comp.val := by
        intro c2 hc2 hval
        exact (List.nodup_cons.mp hnd).1 ((Fin.val_injective hval) ▸ hc2)
      rw [unmixPhase_notMem U chan nS b xs _ comp.val s hrest]
      rw [foldl_addFrom_eval]
      rw [if_pos ⟨rfl, hs⟩]
      rw [Fin.sum_univ_def]
      simp [bufClear, hs]
    · exact ih _ comp (List.nodup_cons.mp hnd).2 hmem2 s hs

/-- Value of the additive clearing loop. -/
theorem clearPhase_eval {n : ℕ} (chan : Fin n → ℕ) (nS : ℕ) (b : Buf) (c s : ℕ) :
    clearPhase chan nS b c s
      = if (∃ k : Fin n, chan k = c) ∧ s < nS then 0 else b c s := by
  unfold clearPhase
  rw [foldl_clear_eval]
  have : ((∃ k ∈ List.finRange n, chan k = c) ∧ s < nS) ↔ ((∃ k : Fin n, chan k = c) ∧ s < nS) := by
    simp [List.mem_finRange]
  by_cases h : (∃ k : Fin n, chan k = c) ∧ s < nS
  · rw [if_pos (this.mpr h), if_pos h]
  · rw [if_neg (fun hc => h (this.mp hc)), if_neg h]

/-- The remixing loop leaves channels outside the enabled-channel image
untouched. -/
theorem remixPhase_notMem {n : ℕ} (M : Fin n → Fin n → ℚ) (chan : Fin n → ℕ) (nS : ℕ)
    (additive : Bool) (cb : Buf) : ∀ (comps : List (Fin n)) (b : Buf) (c s : ℕ),
    (∀ j : Fin n, chan j ≠ c) →
    remixPhase M chan nS additive cb comps b c s = b c s := by
  intro comps
  induction comps with
  | nil => intro b c s _; rfl
  | cons x xs ih =>
    intro b c s hne
    unfold remixPhase
    simp only [List.foldl_cons]
    rw [show ∀ b2, List.foldl _ b2 xs = remixPhase M chan nS additive cb xs b2 from
      fun _ => rfl]
    rw [ih _ c s hne]
    rw [foldl_addFromVar_eval]
    have hfil : (List.finRange n).filter (fun j => decide (chan j = c)) = [] := by
      rw [List.filter_eq_nil_iff]
      intro j _
      simp [hne j]
    rw [hfil]
    simp

/-- The remixing loop does not touch samples at or beyond the buffer length. -/
theorem remixPhase_late {n : ℕ} (M : Fin n → Fin n → ℚ) (chan : Fin n → ℕ) (nS : ℕ)
    (additive : Bool) (cb : Buf) : ∀ (comps : List (Fin n)) (b : Buf) (c s : ℕ),
    nS ≤ s →
    remixPhase M chan nS additive cb comps b c s = b c s := by
  intro comps
  induction comps with
  | nil => intro b c s _; rfl
  | cons x xs ih =>
    intro b c s hs
    unfold remixPhase
    simp only [List.foldl_cons]
    rw [show ∀ b2, List.foldl _ b2 xs = remixPhase M chan nS additive cb xs b2 from
      fun _ => rfl]
    rw [ih _ c s hs]
    rw [foldl_addFromVar_eval]
    rw [if_neg (by omega), add_zero]

/-- Value of the remixing loop on an enabled channel: each worked component
contributes its mixing-matrix-weighted component-buffer row, with the sign
flipped on the subtractive path. -/
theorem remixPhase_eval {n : ℕ} (M : Fin n → Fin n → ℚ) (chan : Fin n → ℕ) (nS : ℕ)
    (additive : Bool) (cb : Buf) (hinj : Function.Injective chan) :
    ∀ (comps : List (Fin n)) (b : Buf) (k : Fin n) (s : ℕ), s < nS →
    remixPhase M chan nS additive cb comps b (chan k) s
      = b (chan k) s
        + (comps.map (fun comp =>
            (if additive then M k comp else -(M k comp)) * cb comp.val s)).sum := by
  intro comps
  induction comps with
  | nil => intro b k s _; simp [remixPhase]
  | cons x xs ih =>
    intro b k s hs
    unfold remixPhase
    simp only [List.foldl_cons]
    rw [show ∀ b2, List.foldl _ b2 xs = remixPhase M chan nS additive cb xs b2 from
      fun _ => rfl]
    rw [ih _ k s hs]
    rw [foldl_addFromVar_eval]
    rw [if_pos hs]
    rw [filter_finRange_chan chan hinj k]
    simp only [List.map_cons, List.map_nil, List.sum_cons, List.sum_nil, add_zero]
    ring

/-- Summing a mapped filtered list equals summing with the predicate as a
guard. -/
theorem sum_map_filter {α : Type} (p : α → Bool) (g : α → ℚ) :
    ∀ l : List α, ((l.filter p).map g).sum = (l.map (fun i => if p i then g i else 0)).sum := by
  intro l
  induction l with
  | nil => rfl
  | cons x xs ih =>
    by_cases hx : p x = true
    · rw [List.filter_cons_of_pos hx]
      simp only [List.map_cons, List.sum_cons, ih, if_pos hx]
    · rw [List.filter_cons_of_neg (by simpa using hx)]
      simp only [List.map_cons, List.sum_cons, ih, if_neg hx, zero_add]

/-- The subtractive component list sums over the rejected set. -/
theorem icaComps_sum_sub {n : ℕ} (rej : Finset (Fin n)) (f : Fin n → ℚ) :
    ((icaComps n rej false).map f).sum = ∑ c in rej, f c := by
  unfold icaComps
  rw [if_neg (by simp)]
  rw [sum_map_filter]
  rw [← Fin.sum_univ_def]
  simp only [decide_eq_true_eq]
  rw [Finset.sum_ite_mem, Finset.univ_inter]

/-- The additive component list sums over the complement of the rejected
set. -/
theorem icaComps_sum_add {n : ℕ} (rej : Finset (Fin n)) (f : Fin n → ℚ) :
    ((icaComps n rej true).map f).sum = ∑ c in rejᶜ, f c := by
  unfold icaComps
  rw [if_pos rfl]
  rw [sum_map_filter]
  rw [← Fin.sum_univ_def]
  have : ∀ i : Fin n, (if decide (i ∉ rej) = true then f i else 0)
      = (if i ∈ rejᶜ then f i else 0) := by
    intro i
    simp [Finset.mem_compl]
  simp_rw [this]
  rw [Finset.sum_ite_mem, Finset.univ_inter]

/-- Both component lists are duplicate-free. -/
theorem icaComps_nodup {n : ℕ} (rej : Finset (Fin n)) (additive : Bool) :
    (icaComps n rej additive).Nodup := by
  unfold icaComps
  cases additive <;> simp <;> exact (List.nodup_finRange n).filter _

/-- The subtractive path computes buffer minus the rejected components
remixed, on every enabled channel. -/
theorem applyICA_sub_eval {n : ℕ} (M U : Fin n → Fin n → ℚ) (rej : Finset (Fin n))
    (chan : Fin n → ℕ) (nS : ℕ) (b cb : Buf) (hinj : Function.Injective chan)
    (k : Fin n) (s : ℕ) (hs : s < nS) :
    applyICA M U rej chan nS b cb false (chan k) s
      = b (chan k) s - ∑ c in rej, M k c * (∑ j, U c j * b (chan j) s) := by
  unfold applyICA
  simp only [Bool.false_eq_true, if_false]
  rw [remixPhase_eval M chan nS false _ hinj _ _ k s hs]
  have hnd : (icaComps n rej false).Nodup := icaComps_nodup rej false
  have hmap : (icaComps n rej false).map
        (fun comp => (if (false : Bool) then M k comp else -(M k comp))
          * unmixPhase U chan nS b (icaComps n rej false) cb comp.val s)
      = (icaComps n rej false).map
        (fun comp => -(M k comp) * (∑ j, U comp j * b (chan j) s)) := by
    apply List.map_congr_left
    intro comp hc
    rw [unmixPhase_eval U chan nS b _ cb comp hnd hc s hs]
    simp
  rw [hmap, icaComps_sum_sub]
  simp only [neg_mul]
  rw [Finset.sum_neg_distrib]
  ring

/-- The additive path computes the same value as the subtractive path when
the mixing matrix is the exact inverse of the unmixing matrix. -/
theorem applyICA_add_eval {n : ℕ} (M U : Fin n → Fin n → ℚ) (rej : Finset (Fin n))
    (chan : Fin n → ℕ) (nS : ℕ) (b cb : Buf) (hinj : Function.Injective chan)
    (hMU : ∀ i j, (∑ c, M i c * U c j) = if i = j then (1 : ℚ) else 0)
    (k : Fin n) (s : ℕ) (hs : s < nS) :
    applyICA M U rej chan nS b cb true (chan k) s
      = b (chan k) s - ∑ c in rej, M k c * (∑ j, U c j * b (chan j) s) := by
  unfold applyICA
  simp only [if_true]
  rw [remixPhase_eval M chan nS true _ hinj _ _ k s hs]
  have hnd : (icaComps n rej true).Nodup := icaComps_nodup rej true
  have hmap : (icaComps n rej true).map
        (fun comp => (if (true : Bool) then M k comp else -(M k comp))
          * unmixPhase U chan nS b (icaComps n rej true) cb comp.val s)
      = (icaComps n rej true).map
        (fun comp => M k comp * (∑ j, U comp j * b (chan j) s)) := by
    apply List.map_congr_left
    intro comp hc
    rw [unmixPhase_eval U chan nS b _ cb comp hnd hc s hs]
    simp
  rw [hmap, icaComps_sum_add]
  rw [clearPhase_eval]
  rw [if_pos ⟨⟨k, rfl⟩, hs⟩, zero_add]
  have hsplit : ∑ c in rejᶜ, M k c * (∑ j, U c j * b (chan j) s)
      = (∑ c, M k c * (∑ j, U c j * b (chan j) s))
        - ∑ c in rej, M k c * (∑ j, U c j * b (chan j) s) :=
    eq_sub_of_add_eq (Finset.sum_compl_add_sum rej _)
  rw [hsplit]
  have hMUb : (∑ c, M k c * (∑ j, U c j * b (chan j) s)) = b (chan k) s := by
    calc (∑ c, M k c * (∑ j, U c j * b (chan j) s))
        = ∑ c, ∑ j, M k c * (U c j * b (chan j) s) := by
          simp_rw [Finset.mul_sum]
      _ = ∑ j, ∑ c, M k c * (U c j * b (chan j) s) := Finset.sum_comm
      _ = ∑ j, (∑ c, M k c * U c j) * b (chan j) s := by
          simp_rw [Finset.sum_mul, mul_assoc]
      _ = ∑ j, (if k = j then (1 : ℚ) else 0) * b (chan j) s := by
          simp_rw [hMU]
      _ = b (chan k) s := by
          simp [ite_mul]
  rw [hMUb]

/-- The additive and subtractive code paths of process() produce the same
buffer, sample for sample, when the mixing matrix inverts the unmixing
matrix. -/
theorem applyICA_path_eq {n : ℕ} (M U : Fin n → Fin n → ℚ) (rej : Finset (Fin n))
    (chan : Fin n → ℕ) (nS : ℕ) (b cb : Buf) (hinj : Function.Injective chan)
    (hMU : ∀ i j, (∑ c, M i c * U c j) = if i = j then (1 : ℚ) else 0)
    (c t : ℕ) :
    applyICA M U rej chan nS b cb true c t = applyICA M U rej chan nS b cb false c t := by
  by_cases ht : t < nS
  · by_cases hc : ∃ k : Fin n, chan k = c
    · obtain ⟨k, rfl⟩ := hc
      rw [applyICA_add_eval M U rej chan nS b cb hinj hMU k t ht,
        applyICA_sub_eval M U rej chan nS b cb hinj k t ht]
    · unfold applyICA
      simp only [if_true, Bool.false_eq_true, if_false]
      rw [remixPhase_notMem M chan nS true _ _ _ c t (fun j hj => hc ⟨j, hj⟩),
        remixPhase_notMem M chan nS false _ _ _ c t (fun j hj => hc ⟨j, hj⟩)]
      rw [clearPhase_eval]
      rw [if_neg (fun hcon => hc hcon.1)]
  · unfold applyICA
    simp only [if_true, Bool.false_eq_true, if_false]
    rw [remixPhase_late M chan nS true _ _ _ c t (le_of_not_lt ht),
      remixPhase_late M chan nS false _ _ _ c t (le_of_not_lt ht)]
    rw [clearPhase_eval]
    rw [if_neg (fun hcon => ht hcon.2)]

/-- C1: for every audio buffer and every installed non-no-op ICAOperation
(whose mixing matrix is the exact inverse of its unmixing matrix, as the
training pipeline computes it, and whose enabled-channel map is injective as
juce SortedSets guarantee), the realtime process() step leaves each enabled
channel equal to buffer minus mixing times diag(reject) times unmixing times
buffer, and the additive and subtractive code paths produce identical output
for the same rejected-component set at every channel and sample. -/
theorem process_numeric_contract {n : ℕ} (M U : Fin n → Fin n → ℚ) (rej : Finset (Fin n))
    (chan : Fin n → ℕ) (nS : ℕ) (b cb : Buf)
    (hinj : Function.Injective chan)
    (hMU : ∀ i j, (∑ c, M i c * U c j) = if i = j then (1 : ℚ) else 0)
    (k : Fin n) (s : ℕ) (hs : s < nS) (c t : ℕ) :
    processSubProc M U rej chan nS b cb (chan k) s
      = b (chan k) s - ∑ x in rej, M k x * (∑ j, U x j * b (chan j) s)
    ∧ applyICA M U rej chan nS b cb true c t = applyICA M U rej chan nS b cb false c t := by
  constructor
  · unfold processSubProc
    cases hadd : decide (n / 2 < rej.card) with
    | false => exact applyICA_sub_eval M U rej chan nS b cb hinj k s hs
    | true =>
      rw [applyICA_path_eq M U rej chan nS b cb hinj hMU]
      exact applyICA_sub_eval M U rej chan nS b cb hinj k s hs
  · exact applyICA_path_eq M U rej chan nS b cb hinj hMU c t

/-- Identity matrix on two components, used as a concrete operation. -/
def wIdM : Fin 2 → Fin 2 → ℚ := fun i j => if i = j then 1 else 0

/-- Concrete audio buffer for witnesses. -/
def wBuf : Buf := fun c s => (c : ℚ) + (s : ℚ)

/-- Concrete component scratch buffer for witnesses. -/
def wCb : Buf := fun _ _ => 0

/-- Witness for process_numeric_contract at a concrete two-channel identity
operation rejecting component 0. -/
theorem process_numeric_contract_witness :
    (0 : ℕ) < 1 ∧
    processSubProc wIdM wIdM {0} (fun i : Fin 2 => (i : ℕ)) 1 wBuf wCb 0 0
      = wBuf 0 0 - ∑ x in ({0} : Finset (Fin 2)), wIdM 0 x * (∑ j, wIdM x j * wBuf (j : ℕ) 0) := by
  refine ⟨by decide, ?_⟩
  exact (process_numeric_contract wIdM wIdM {0} (fun i : Fin 2 => (i : ℕ)) 1 wBuf wCb
    (fun a b h => Fin.val_injective h)
    (by intro i j; fin_cases i <;> fin_cases j <;> simp [wIdM, Fin.sum_univ_two])
    0 0 (by decide) 0 0).1

/-!
Model of AudioBufferFifo (ICANode.h lines 35-102, ICANode.cpp lines 1259-1455).

The handle operations are modelled directly on the fifo state: a handle whose
lock attempt failed performs no operation in the source (isValid is false),
so the modelled behaviour is that of a valid handle.  The juce
AudioSampleBuffer backing store is a function from channel and slot index to
sample value; slots that the source leaves unspecified after a resize are
modelled as holding 0.  The pctFull display value is derived state and is not
modelled.
-/

/-- State of an AudioBufferFifo: backing buffer dimensions and contents, ring
start point and count of valid samples. -/
structure AudioBufferFifo where
  numChans : ℕ
  numSamps : ℕ
  data : ℕ → ℕ → ℚ
  startPoint : ℕ
  numWritten : ℕ

/-- A freshly constructed AudioBufferFifo(numChans, numSamps). -/
def mkFifo (numChans numSamps : ℕ) : AudioBufferFifo :=
  ⟨numChans, numSamps, fun _ _ => 0, 0, 0⟩

namespace AudioBufferFifo

/-- Handle.isFull (ICANode.cpp lines 1295-1300): full when some samples have
been written and the count reaches the buffer length. -/
def isFull (f : AudioBufferFifo) : Bool :=
  decide (0 < f.numWritten) && decide (f.numWritten = f.numSamps)

/-- Handle.reset: write cursor and count back to zero. -/
def reset (f : AudioBufferFifo) : AudioBufferFifo :=
  { f with startPoint := 0, numWritten := 0 }

/-- Handle.resetWithSize: reallocate the backing buffer, discarding data,
then reset. -/
def resetWithSize (_f : AudioBufferFifo) (numChans numSamps : ℕ) : AudioBufferFifo :=
  ⟨numChans, numSamps, fun _ _ => 0, 0, 0⟩

/-- Handle.copySample (ICANode.cpp lines 1319-1350): copy one time sample of
the source across the mapped channels into the next ring slot; advance the
count while filling, or the start point once full. -/
def copySample (f : AudioBufferFifo) (source : Buf) (channels : List ℕ) (sample : ℕ) :
    AudioBufferFifo :=
  if f.numSamps < 1 then f
  else
    let destSample := (f.startPoint + f.numWritten) % f.numSamps
    let newData : ℕ → ℕ → ℚ := fun c s =>
      if c < f.numChans ∧ s = destSample then source (channels.getD c 0) sample
      else f.data c s
    if f.numWritten < f.numSamps then
      { f with data := newData, numWritten := f.numWritten + 1 }
    else
      { f with data := newData, startPoint := (f.startPoint + 1) % f.numSamps }

/-- Handle.resizeKeepingData (ICANode.cpp lines 1353-1392): change the buffer
length; keep slots in place when the occupied region ends within the new
length, otherwise copy the block starting at the ring start point (and any
wrapped remainder) to the front of a fresh buffer. -/
def resizeKeepingData (f : AudioBufferFifo) (numSamps : ℕ) : AudioBufferFifo :=
  if f.numSamps = numSamps then f
  else if f.startPoint + f.numWritten ≤ numSamps then
    { f with
      numSamps := numSamps,
      data := fun c s =>
        if c < f.numChans ∧ s < min f.numSamps numSamps then f.data c s else 0 }
  else
    let newNumWritten := min f.numWritten numSamps
    let block1Start := f.startPoint
    let block1Size := min newNumWritten (f.numSamps - block1Start)
    let block2Size := newNumWritten - block1Size
    ⟨f.numChans, numSamps,
      fun c s =>
        if c < f.numChans ∧ s < block1Size then f.data c (block1Start + s)
        else if c < f.numChans ∧ block1Size ≤ s ∧ s < block1Size + block2Size then
          f.data c (s - block1Size)
        else 0,
      0, newNumWritten⟩

/-- The j-th oldest valid sample of channel c, de-linearizing the ring; the
slot arithmetic matches the export loop of writeChannelsToFile. -/
def logicalSample (f : AudioBufferFifo) (c j : ℕ) : ℚ :=
  f.data c ((f.startPoint + j) % f.numSamps)

/-- The float values emitted by the export loop of writeChannelsToFile for
the first s time samples: channels interleaved within each time sample,
time samples in ring order from the start point. -/
def exportSamples (f : AudioBufferFifo) (chansOut : List ℕ) : ℕ → List ℚ
  | 0 => []
  | s + 1 =>
    exportSamples f chansOut s
      ++ chansOut.map (fun ch => f.data ch ((f.startPoint + s) % f.numSamps))

/-- A stream of float writes in which the k-th write succeeds iff writeOk k;
returns the written values, or an error at the first failed write, matching
the early return of writeChannelsToFile. -/
def writeFloats (writeOk : ℕ → Bool) : ℕ → List ℚ → Except Unit (List ℚ)
  | _, [] => Except.ok []
  | k, x :: xs =>
    if writeOk k then
      match writeFloats writeOk (k + 1) xs with
      | Except.ok rest => Except.ok (x :: rest)
      | Except.error e => Except.error e
    else Except.error ()

/-- Handle.writeChannelsToFile (ICANode.cpp lines 1395-1434): fail if the
output stream does not open; otherwise write all samples of the selected
channels in time order, failing at the first unsuccessful float write. -/
def writeChannelsToFile (f : AudioBufferFifo) (openOk : Bool) (writeOk : ℕ → Bool)
    (chansOut : List ℕ) : Except Unit (List ℚ) :=
  if openOk then writeFloats writeOk 0 (exportSamples f chansOut f.numSamps)
  else Except.error ()

/-- The state after m calls of copySample, the i-th call copying time sample
i of the source buffer. -/
def writeSeq (f : AudioBufferFifo) (source : Buf) (channels : List ℕ) : ℕ → AudioBufferFifo
  | 0 => f
  | m + 1 => (writeSeq f source channels m).copySample source channels m

/-- Adding a nonzero offset smaller than the modulus moves a reduced
residue. -/
theorem add_mod_ne_self {cap start t : ℕ} (hstart : start < cap) (ht0 : 0 < t)
    (htc : t < cap) : (start + t) % cap ≠ start := by
  intro h
  rcases Nat.lt_or_ge (start + t) cap with hlt | hge
  · rw [Nat.mod_eq_of_lt hlt] at h
    omega
  · rw [Nat.mod_eq_sub_mod hge, Nat.mod_eq_of_lt (by omega)] at h
    omega

/-- One-step characterization of copySample on a nonempty buffer. -/
theorem copySample_eval (f : AudioBufferFifo) (source : Buf) (channels : List ℕ)
    (sample : ℕ) (h1 : 0 < f.numSamps) :
    (f.copySample source channels sample).numChans = f.numChans ∧
    (f.copySample source channels sample).numSamps = f.numSamps ∧
    (f.copySample source channels sample).numWritten
      = (if f.numWritten < f.numSamps then f.numWritten + 1 else f.numWritten) ∧
    (f.copySample source channels sample).startPoint
      = (if f.numWritten < f.numSamps then f.startPoint
         else (f.startPoint + 1) % f.numSamps) ∧
    ∀ c s, (f.copySample source channels sample).data c s
      = if c < f.numChans ∧ s = (f.startPoint + f.numWritten) % f.numSamps
        then source (channels.getD c 0) sample else f.data c s := by
  unfold copySample
  rw [if_neg (by omega)]
  by_cases h : f.numWritten < f.numSamps
  · simp [h]
  · simp [h]

/-- Full characterization of the state after m copySample calls into a fresh
cache: the count saturates at the capacity, the ring start tracks the number
of discarded oldest samples, and the j-th oldest retained sample is the
(m - min m cap + j)-th written one. -/
theorem writeSeq_spec (nc cap : ℕ) (hcap : 0 < cap) (source : Buf) (channels : List ℕ) :
    ∀ m : ℕ,
      (writeSeq (mkFifo nc cap) source channels m).numChans = nc ∧
      (writeSeq (mkFifo nc cap) source channels m).numSamps = cap ∧
      (writeSeq (mkFifo nc cap) source channels m).numWritten = min m cap ∧
      (writeSeq (mkFifo nc cap) source channels m).startPoint = (m - min m cap) % cap ∧
      (∀ c, c < nc → ∀ j, j < min m cap →
        (writeSeq (mkFifo nc cap) source channels m).logicalSample c j
          = source (channels.getD c 0) (m - min m cap + j)) := by
  intro m
  induction m with
  | zero =>
    refine ⟨rfl, rfl, by simp [writeSeq, mkFifo], by simp [writeSeq, mkFifo], ?_⟩
    intro c _ j hj
    simp [writeSeq, mkFifo] at hj
  | succ m ih =>
    obtain ⟨ihc, ihs, ihw, ihp, ihd⟩ := ih
    have hstep : writeSeq (mkFifo nc cap) source channels (m + 1)
        = (writeSeq (mkFifo nc cap) source channels m).copySample source channels m := rfl
    obtain ⟨hec, hes, hew, hep, hed⟩ :=
      copySample_eval (writeSeq (mkFifo nc cap) source channels m) source channels m
        (by omega)
    by_cases hm : m < cap
    · -- still filling: count m, start 0, write lands in slot m
      have hmin : min m cap = m := by omega
      have hw : (writeSeq (mkFifo nc cap) source channels m).numWritten = m := by
        rw [ihw, hmin]
      have hp : (writeSeq (mkFifo nc cap) source channels m).startPoint = 0 := by
        rw [ihp, hmin]
        simp
      have hlt : (writeSeq (mkFifo nc cap) source channels m).numWritten
          < (writeSeq (mkFifo nc cap) source channels m).numSamps := by
        rw [hw, ihs]; exact hm
      have hdest : ((writeSeq (mkFifo nc cap) source channels m).startPoint
          + (writeSeq (mkFifo nc cap) source channels m).numWritten)
          % (writeSeq (mkFifo nc cap) source channels m).numSamps = m := by
        rw [hw, hp, ihs]
        simpa using Nat.mod_eq_of_lt hm
      have hminS : min (m + 1) cap = m + 1 := by omega
      refine ⟨by rw [hstep, hec, ihc], by rw [hstep, hes, ihs], ?_, ?_, ?_⟩
      · rw [hstep, hew, if_pos hlt, hw, hminS]
      · rw [hstep, hep, if_pos hlt, hp, hminS]
        simp
      · intro c hc j hj
        rw [hminS] at hj
        unfold logicalSample
        rw [hstep, hes, ihs, hep, if_pos hlt, hp, hed]
        rw [hdest]
        have hjcap : j < cap := by omega
        have hslot : (0 + j) % cap = j := by simpa using Nat.mod_eq_of_lt hjcap
        rw [hslot]
        rcases Nat.lt_or_ge j m with hjm | hjm
        · rw [if_neg (by omega)]
          have := ihd c hc j (by omega)
          unfold logicalSample at this
          rw [ihs, ihp, hmin] at this
          simp only [Nat.sub_self, Nat.zero_mod, Nat.zero_add] at this
          rw [Nat.mod_eq_of_lt hjcap] at this
          rw [this]
          congr 1
          omega
        · have hjem : j = m := by omega
          rw [if_pos ⟨by rw [ihc]; exact hc, hjem⟩]
          congr 1
          omega
    · -- already full: count saturated at cap, start advances by one
      have hmcap : cap ≤ m := by omega
      have hmin : min m cap = cap := by omega
      have hw : (writeSeq (mkFifo nc cap) source channels m).numWritten = cap := by
        rw [ihw, hmin]
      have hstart : (writeSeq (mkFifo nc cap) source channels m).startPoint
          = (m - cap) % cap := by rw [ihp, hmin]
      have hstartlt : (m - cap) % cap < cap := Nat.mod_lt _ hcap
      have hnlt : ¬((writeSeq (mkFifo nc cap) source channels m).numWritten
          < (writeSeq (mkFifo nc cap) source channels m).numSamps) := by
        rw [hw, ihs]; omega
      have hdest : ((writeSeq (mkFifo nc cap) source channels m).startPoint
          + (writeSeq (mkFifo nc cap) source channels m).numWritten)
          % (writeSeq (mkFifo nc cap) source channels m).numSamps = (m - cap) % cap := by
        rw [hw, hstart, ihs, Nat.add_mod_right]
        exact Nat.mod_eq_of_lt hstartlt
      have hminS : min (m + 1) cap = cap := by omega
      refine ⟨by rw [hstep, hec, ihc], by rw [hstep, hes, ihs], ?_, ?_, ?_⟩
      · rw [hstep, hew, if_neg hnlt, hw, hminS]
      · rw [hstep, hep, if_neg hnlt, hstart, ihs, hminS]
        rw [Nat.mod_add_mod]
        congr 1
        omega
      · intro c hc j hj
        rw [hminS] at hj
        unfold logicalSample
        rw [hstep, hes, ihs, hep, if_neg hnlt, hstart, ihs, hed, hdest]
        rw [Nat.mod_add_mod]
        rcases Nat.lt_or_ge j (cap - 1) with hjlt | hjge
        · -- not the slot just written: it still holds the (j+1)-th oldest of state m
          have hslotne : (m - cap) % cap + 1 + j = (m - cap) % cap + (j + 1) := by omega
          rw [hslotne]
          rw [if_neg ?hne]
          case hne =>
            rintro ⟨-, habs⟩
            exact add_mod_ne_self hstartlt (by omega) (by omega) habs
          have := ihd c hc (j + 1) (by omega)
          unfold logicalSample at this
          rw [ihs, hstart] at this
          rw [this]
          congr 1
          omega
        · -- the newest retained sample sits in the slot just overwritten
          have hjeq : j = cap - 1 := by omega
          have hslot : ((m - cap) % cap + 1 + j) % cap = (m - cap) % cap := by
            rw [hjeq]
            have : (m - cap) % cap + 1 + (cap - 1) = (m - cap) % cap + cap := by omega
            rw [this, Nat.add_mod_right, Nat.mod_eq_of_lt hstartlt]
          rw [hslot]
          rw [if_pos ⟨by rw [ihc]; exact hc, rfl⟩]
          congr 1
          omega

/-- C2: for every cache of capacity cap > 0 filled from empty via copySample,
after writing exactly cap samples isFull returns true and the oldest sample
is the first value written; writing one further sample keeps the valid count
equal to cap, advances the logical start by one, and the oldest sample
becomes the second value written while the newly written value is the newest,
so the identity of the oldest sample changes - FIFO semantics. -/
theorem copySample_fifo_property (nc cap : ℕ) (hcap : 0 < cap) (source : Buf)
    (channels : List ℕ) (c : ℕ) (hc : c < nc) :
    (writeSeq (mkFifo nc cap) source channels cap).isFull = true
    ∧ (writeSeq (mkFifo nc cap) source channels cap).logicalSample c 0
        = source (channels.getD c 0) 0
    ∧ (writeSeq (mkFifo nc cap) source channels (cap + 1)).numWritten = cap
    ∧ (writeSeq (mkFifo nc cap) source channels (cap + 1)).startPoint = 1 % cap
    ∧ (writeSeq (mkFifo nc cap) source channels (cap + 1)).logicalSample c 0
        = source (channels.getD c 0) 1
    ∧ (writeSeq (mkFifo nc cap) source channels (cap + 1)).logicalSample c (cap - 1)
        = source (channels.getD c 0) cap := by
  obtain ⟨h1c, h1s, h1w, h1p, h1d⟩ := writeSeq_spec nc cap hcap source channels cap
  obtain ⟨h2c, h2s, h2w, h2p, h2d⟩ := writeSeq_spec nc cap hcap source channels (cap + 1)
  have hmin1 : min cap cap = cap := by omega
  have hmin2 : min (cap + 1) cap = cap := by omega
  refine ⟨?_, ?_, ?_, ?_, ?_, ?_⟩
  · unfold isFull
    rw [h1w, h1s, hmin1]
    simp [hcap]
  · rw [h1d c hc 0 (by omega)]
    congr 1
    omega
  · rw [h2w, hmin2]
  · rw [h2p, hmin2]
    congr 1
    omega
  · rw [h2d c hc 0 (by omega)]
    congr 1
    omega
  · rw [h2d c hc (cap - 1) (by omega)]
    congr 1
    omega

/-- Witness for copySample_fifo_property on a 1-channel capacity-2 cache. -/
theorem copySample_fifo_property_witness :
    (0 : ℕ) < 2 ∧ (0 : ℕ) < 1
    ∧ (writeSeq (mkFifo 1 2) wBuf [0] 2).isFull = true
    ∧ (writeSeq (mkFifo 1 2) wBuf [0] 3).logicalSample 0 0 = wBuf ([0].getD 0 0) 1 := by
  refine ⟨by decide, by decide, ?_, ?_⟩
  · exact (copySample_fifo_property 1 2 (by decide) wBuf [0] 0 (by decide)).1
  · exact (copySample_fifo_property 1 2 (by decide) wBuf [0] 0 (by decide)).2.2.2.2.1

/-- C8 (amended): reset, resetWithSize, copySample and resizeKeepingData all
preserve the invariant that the count of valid samples is at least 0 and at
most the capacity, and the cache reports full exactly when the count is
positive and equals the capacity; in particular a capacity-0 cache never
reports full. -/
theorem fifo_count_invariant (f : AudioBufferFifo) (source : Buf) (channels : List ℕ)
    (sample nc ns n : ℕ) (h : f.numWritten ≤ f.numSamps) :
    (f.reset).numWritten ≤ (f.reset).numSamps
    ∧ (f.resetWithSize nc ns).numWritten ≤ (f.resetWithSize nc ns).numSamps
    ∧ (f.copySample source channels sample).numWritten
        ≤ (f.copySample source channels sample).numSamps
    ∧ (f.resizeKeepingData n).numWritten ≤ (f.resizeKeepingData n).numSamps
    ∧ (f.isFull = true ↔ (f.numWritten = f.numSamps ∧ 0 < f.numSamps)) := by
  refine ⟨by simp [reset], by simp [resetWithSize], ?_, ?_, ?_⟩
  · unfold copySample
    by_cases h0 : f.numSamps < 1
    · rw [if_pos h0]
      exact h
    · rw [if_neg h0]
      by_cases h2 : f.numWritten < f.numSamps
      · simp only [if_pos h2]
        omega
      · simp only [if_neg h2]
        exact h
  · unfold resizeKeepingData
    by_cases heq : f.numSamps = n
    · rw [if_pos heq]
      exact h
    · rw [if_neg heq]
      by_cases hle : f.startPoint + f.numWritten ≤ n
      · simp only [if_pos hle]
        omega
      · simp only [if_neg hle]
        omega
  · unfold isFull
    simp only [Bool.and_eq_true, decide_eq_true_eq]
    omega

/-- C8 counterexample: a capacity-zero cache has count equal to capacity yet
does not report full, refuting the claimed capacity-zero edge case of the
original claim. -/
theorem isFull_capacity_zero_counterexample :
    (mkFifo 1 0).numWritten = (mkFifo 1 0).numSamps ∧ (mkFifo 1 0).isFull = false :=
  ⟨rfl, rfl⟩

/-- Witness for fifo_count_invariant. -/
theorem fifo_count_invariant_witness :
    (mkFifo 1 2).numWritten ≤ (mkFifo 1 2).numSamps
    ∧ ((mkFifo 1 2).reset).numWritten ≤ ((mkFifo 1 2).reset).numSamps
    ∧ ((mkFifo 1 2).isFull = true ↔ ((mkFifo 1 2).numWritten = (mkFifo 1 2).numSamps
        ∧ 0 < (mkFifo 1 2).numSamps)) := by
  refine ⟨by decide, ?_, ?_⟩
  · exact (fifo_count_invariant (mkFifo 1 2) wBuf [0] 0 1 2 3 (by decide)).1
  · exact (fifo_count_invariant (mkFifo 1 2) wBuf [0] 0 1 2 3 (by decide)).2.2.2.2

/-- C3 (amended): resizeKeepingData preserves all data in place when the
occupied region of the ring ends within both the old and the new capacity;
when the occupied region extends past the new capacity the ring is
re-linearized and the oldest min(count, n) samples survive in time order, so
when the retained data must shrink the samples dropped are the newest ones
first; resizing to the current capacity is a no-op. -/
theorem resizeKeepingData_retention (f : AudioBufferFifo) (n c i : ℕ)
    (hNW : f.numWritten ≤ f.numSamps) (hsp : f.startPoint ≤ f.numSamps) :
    (f.numSamps ≠ n → n < f.startPoint + f.numWritten →
      (f.resizeKeepingData n).numSamps = n
      ∧ (f.resizeKeepingData n).startPoint = 0
      ∧ (f.resizeKeepingData n).numWritten = min f.numWritten n
      ∧ (c < f.numChans → i < min f.numWritten n →
          (f.resizeKeepingData n).logicalSample c i = f.logicalSample c i))
    ∧ (f.numSamps ≠ n → f.startPoint + f.numWritten ≤ n →
        f.startPoint + f.numWritten ≤ f.numSamps →
      (f.resizeKeepingData n).numSamps = n
      ∧ (f.resizeKeepingData n).startPoint = f.startPoint
      ∧ (f.resizeKeepingData n).numWritten = f.numWritten
      ∧ (c < f.numChans → i < f.numWritten →
          (f.resizeKeepingData n).logicalSample c i = f.logicalSample c i))
    ∧ (f.numSamps = n → f.resizeKeepingData n = f) := by
  refine ⟨?_, ?_, ?_⟩
  · intro hne hshort
    unfold resizeKeepingData
    rw [if_neg hne, if_neg (by omega)]
    refine ⟨rfl, rfl, rfl, ?_⟩
    intro hc hi
    unfold logicalSample
    simp only
    have hin : i < n := by omega
    rw [Nat.zero_add, Nat.mod_eq_of_lt hin]
    by_cases hblock : i < min (min f.numWritten n) (f.numSamps - f.startPoint)
    · rw [if_pos ⟨hc, hblock⟩]
      have : f.startPoint + i < f.numSamps := by omega
      rw [Nat.mod_eq_of_lt this]
    · have hb1 : min (min f.numWritten n) (f.numSamps - f.startPoint)
          = f.numSamps - f.startPoint := by omega
      have hpos : 0 < f.numSamps := by omega
      rw [if_neg (by omega)]
      rw [if_pos ⟨hc, by omega, by omega⟩]
      have hge : f.numSamps ≤ f.startPoint + i := by omega
      have hlt2 : f.startPoint + i - f.numSamps < f.numSamps := by omega
      rw [Nat.mod_eq_sub_mod hge, Nat.mod_eq_of_lt hlt2]
      congr 1
      omega
  · intro hne hfits hnowrap
    unfold resizeKeepingData
    rw [if_neg hne, if_pos hfits]
    refine ⟨rfl, rfl, rfl, ?_⟩
    intro hc hi
    unfold logicalSample
    simp only
    have h1 : f.startPoint + i < n := by omega
    have h2 : f.startPoint + i < f.numSamps := by omega
    rw [Nat.mod_eq_of_lt h1, Nat.mod_eq_of_lt h2]
    rw [if_pos ⟨hc, by omega⟩]
  · intro heq
    unfold resizeKeepingData
    rw [if_pos heq]

/-- Concrete wrapped full cache for the C3 counterexample: capacity 4, start
point 2, slot s holding the value s, so the oldest sample has value 2 and
the newest has value 1. -/
def fCex : AudioBufferFifo := ⟨1, 4, fun _ s => (s : ℚ), 2, 4⟩

/-- C3 counterexample: shrinking the wrapped full cache fCex to capacity 2
keeps the oldest sample (value 2) rather than the claimed newest samples:
the retained oldest sample differs from the old third-oldest sample that the
original claim says should become the oldest. -/
theorem resizeKeepingData_counterexample :
    (fCex.resizeKeepingData 2).numWritten = 2
    ∧ (fCex.resizeKeepingData 2).logicalSample 0 0 = fCex.logicalSample 0 0
    ∧ (fCex.resizeKeepingData 2).logicalSample 0 0 ≠ fCex.logicalSample 0 2 := by
  refine ⟨by decide, by decide, by decide⟩

/-- Witness for resizeKeepingData_retention at the concrete cache fCex. -/
theorem resizeKeepingData_retention_witness :
    fCex.numWritten ≤ fCex.numSamps
    ∧ (fCex.resizeKeepingData 2).numSamps = 2
    ∧ (fCex.resizeKeepingData 2).logicalSample 0 0 = fCex.logicalSample 0 0 := by
  refine ⟨by decide, ?_, ?_⟩
  · exact ((resizeKeepingData_retention fCex 2 0 0 (by decide) (by decide)).1
      (by decide) (by decide)).1
  · exact ((resizeKeepingData_retention fCex 2 0 0 (by decide) (by decide)).1
      (by decide) (by decide)).2.2.2 (by decide) (by decide)

/-- getD on a mapped list inside bounds. -/
theorem getD_map (g : ℕ → ℚ) : ∀ (l : List ℕ) (j : ℕ), j < l.length →
    (l.map g).getD j 0 = g (l.getD j 0) := by
  intro l
  induction l with
  | nil => intro j hj; simp at hj
  | cons x xs ih =>
    intro j hj
    cases j with
    | zero => rfl
    | succ j =>
      simp only [List.map_cons, List.getD_cons_succ]
      exact ih j (by simpa using hj)

/-- Length of the exported value list. -/
theorem exportSamples_length (f : AudioBufferFifo) (chansOut : List ℕ) :
    ∀ s, (exportSamples f chansOut s).length = s * chansOut.length := by
  intro s
  induction s with
  | zero => simp [exportSamples]
  | succ s ih =>
    unfold exportSamples
    rw [List.length_append, List.length_map, ih]
    ring

/-- Element of the exported value list at time index s and channel slot j. -/
theorem exportSamples_getD (f : AudioBufferFifo) (chansOut : List ℕ) :
    ∀ (sTot s j : ℕ), s < sTot → j < chansOut.length →
    (exportSamples f chansOut sTot).getD (s * chansOut.length + j) 0
      = f.data (chansOut.getD j 0) ((f.startPoint + s) % f.numSamps) := by
  intro sTot
  induction sTot with
  | zero => intro s j hs _; omega
  | succ sTot ih =>
    intro s j hs hj
    unfold exportSamples
    rcases Nat.lt_or_ge s sTot with h | h
    · have hidx : s * chansOut.length + j < (exportSamples f chansOut sTot).length := by
        rw [exportSamples_length]
        have h1 : s * chansOut.length + j < (s + 1) * chansOut.length := by
          rw [Nat.succ_mul]
          omega
        have h2 : (s + 1) * chansOut.length ≤ sTot * chansOut.length :=
          Nat.mul_le_mul_right _ (by omega)
        omega
      rw [List.getD_append _ _ _ _ hidx]
      exact ih s j h hj
    · have hseq : s = sTot := by omega
      subst hseq
      have hlen : (exportSamples f chansOut s).length = s * chansOut.length :=
        exportSamples_length f chansOut s
      have hidx : s * chansOut.length + j - (exportSamples f chansOut s).length = j := by
        omega
      rw [List.getD_append_right _ _ _ _ (by omega)]
      rw [hidx]
      exact getD_map _ chansOut j hj

/-- When every float write up to the list length succeeds, the write loop
returns the whole list. -/
theorem writeFloats_ok (writeOk : ℕ → Bool) :
    ∀ (l : List ℚ) (k : ℕ), (∀ i, i < l.length → writeOk (k + i) = true) →
      writeFloats writeOk k l = Except.ok l := by
  intro l
  induction l with
  | nil => intro k _; rfl
  | cons x xs ih =>
    intro k hall
    unfold writeFloats
    rw [if_pos (by simpa using hall 0 (by simp))]
    rw [ih (k + 1) (fun i hi => by
      rw [show k + 1 + i = k + (i + 1) by omega]
      exact hall (i + 1) (by simpa using hi))]

/-- When some float write within the list length fails, the write loop
reports an error. -/
theorem writeFloats_err (writeOk : ℕ → Bool) :
    ∀ (l : List ℚ) (k i : ℕ), i < l.length → writeOk (k + i) = false →
      writeFloats writeOk k l = Except.error () := by
  intro l
  induction l with
  | nil => intro k i hi; simp at hi
  | cons x xs ih =>
    intro k i hi hbad
    unfold writeFloats
    by_cases hk : writeOk k = true
    · rw [if_pos hk]
      have hi0 : i ≠ 0 := by
        intro h0
        rw [h0, Nat.add_zero] at hbad
        rw [hbad] at hk
        exact Bool.false_ne_true hk
      have htail : writeFloats writeOk (k + 1) xs = Except.error () := by
        apply ih (k + 1) (i - 1) (by simp at hi; omega)
        rw [show k + 1 + (i - 1) = k + i by omega]
        exact hbad
      rw [htail]
    · rw [if_neg hk]

/-- C7: for a cache filled from empty with at least capacity-many writes, so
that it is full, writeChannelsToFile emits every cached sample exactly once,
in time order from oldest to newest (de-linearizing the ring, not raw ring
order), with the selected channels interleaved within each time sample; a
failed open or a failed float write is reported as a failure. -/
theorem writeChannelsToFile_time_order (nc cap m : ℕ) (hcap : 0 < cap) (hm : cap ≤ m)
    (source : Buf) (channels : List ℕ) (exch : List ℕ) (hex : ∀ ch ∈ exch, ch < nc)
    (writeOk : ℕ → Bool) (s j : ℕ) (hs : s < cap) (hj : j < exch.length) :
    (writeSeq (mkFifo nc cap) source channels m).isFull = true
    ∧ (writeSeq (mkFifo nc cap) source channels m).writeChannelsToFile false writeOk exch
        = Except.error ()
    ∧ ((∃ i, i < cap * exch.length ∧ writeOk i = false) →
        (writeSeq (mkFifo nc cap) source channels m).writeChannelsToFile true writeOk exch
          = Except.error ())
    ∧ ((∀ i, i < cap * exch.length → writeOk i = true) →
        (writeSeq (mkFifo nc cap) source channels m).writeChannelsToFile true writeOk exch
          = Except.ok (exportSamples (writeSeq (mkFifo nc cap) source channels m) exch cap)
        ∧ (exportSamples (writeSeq (mkFifo nc cap) source channels m) exch cap).length
            = cap * exch.length
        ∧ (exportSamples (writeSeq (mkFifo nc cap) source channels m) exch cap).getD
            (s * exch.length + j) 0
            = source (channels.getD (exch.getD j 0) 0) (m - cap + s)) := by
  obtain ⟨hc, hsamps, hw, hp, hd⟩ := writeSeq_spec nc cap hcap source channels m
  have hmin : min m cap = cap := by omega
  have hfull : (writeSeq (mkFifo nc cap) source channels m).isFull = true := by
    unfold isFull
    rw [hw, hsamps, hmin]
    simp [hcap]
  have hlen : (exportSamples (writeSeq (mkFifo nc cap) source channels m) exch cap).length
      = cap * exch.length := exportSamples_length _ exch cap
  refine ⟨hfull, by simp [writeChannelsToFile], ?_, ?_⟩
  · rintro ⟨i, hi, hbad⟩
    unfold writeChannelsToFile
    rw [if_pos rfl, hsamps]
    exact writeFloats_err writeOk _ 0 i (by rw [hlen]; omega) (by simpa using hbad)
  · intro hallok
    refine ⟨?_, hlen, ?_⟩
    · unfold writeChannelsToFile
      rw [if_pos rfl, hsamps]
      exact writeFloats_ok writeOk _ 0 (fun i hi => by
        apply hallok
        rw [hlen] at hi
        simpa using hi)
    · rw [exportSamples_getD _ exch cap s j hs hj]
      have hchan : exch.getD j 0 < nc := by
        apply hex
        rw [List.getD_eq_getElem?_getD]
        rw [List.getElem?_eq_getElem hj]
        exact List.getElem_mem hj
      have := hd (exch.getD j 0) hchan s (by omega)
      unfold logicalSample at this
      rw [this]
      congr 1
      omega

/-- Witness for writeChannelsToFile_time_order on a 1-channel capacity-2
cache written twice, exporting channel 0 with all writes succeeding. -/
theorem writeChannelsToFile_time_order_witness :
    (0 : ℕ) < 2 ∧ 2 ≤ 2
    ∧ (writeSeq (mkFifo 1 2) wBuf [0] 2).isFull = true
    ∧ (exportSamples (writeSeq (mkFifo 1 2) wBuf [0] 2) [0] 2).getD 0 0
        = wBuf ([0].getD ([0].getD 0 0) 0) (2 - 2 + 0) := by
  refine ⟨by decide, by decide, ?_, ?_⟩
  · exact (writeChannelsToFile_time_order 1 2 2 (by decide) (by decide) wBuf [0] [0]
      (by decide) (fun _ => true) 0 0 (by decide) (by decide)).1
  · exact ((writeChannelsToFile_time_order 1 2 2 (by decide) (by decide) wBuf [0] [0]
      (by decide) (fun _ => true) 0 0 (by decide) (by decide)).2.2.2
      (fun i _ => rfl)).2.2

end AudioBufferFifo

/-!
Model of the node-level state and the training pipeline
(ICANode.cpp lines 65-74, 568-604 and 621-975).

File-system access, the external binica process and the numerical matrix
computations (file parsing, SVD normalization, inversion) live outside the
node; they are modelled as an explicit environment: boolean fields record
whether each interaction succeeds and function fields supply the numerical
results.  Lock acquisition is modelled as successful: every try-lock loop in
the source spins until its lock is acquired.  Cooperative cancellation
(threadShouldExit) is modelled as never requested; the claims below concern
the failure paths, which are independent of cancellation.
-/

/-- A matrix as used by the node-level model; entries are opaque here. -/
def Mat : Type := ℕ → ℕ → ℚ

/-- An ICAOperation (ICANode.h lines 123-136): mixing and unmixing matrices
(none models the empty, size-zero Eigen matrix of a freshly constructed
operation), the enabled-channel index set and the rejected-component set. -/
structure ICAOperation where
  mixing : Option Mat
  unmixing : Option Mat
  enabledChannels : Finset ℕ
  rejectedComponents : Finset ℕ

/-- A freshly constructed ICAOperation(). -/
def ICAOperation.noop : ICAOperation := ⟨none, none, ∅, ∅⟩

/-- isNoop: true when the enabled-channel set is empty. -/
def ICAOperation.isNoop (op : ICAOperation) : Bool :=
  decide (op.enabledChannels = ∅)

/-- juce SortedSet getLast: the largest element, or the default-constructed
value 0 when the set is empty. -/
def sortedSetGetLast (s : Finset ℕ) : ℕ := s.fold max 0 id

/-- Per-subprocessor data (ICANode.h lines 213-227): processor channel
indices, the data cache (abstracted to its fullness and sample count, which
is all the pipeline reads), the installed operation and its config path. -/
structure SubProcData where
  channelInds : List ℕ
  cacheFull : Bool
  cacheNumSamples : ℕ
  icaOp : ICAOperation
  icaConfigPath : String

/-- Node state reached by the pipeline: the selected subprocessor and the
per-subprocessor map. -/
structure NodeState where
  currSubProc : ℕ
  subProcData : List (ℕ × SubProcData)

/-- subProcData.find on the node map. -/
def findSubProc (st : NodeState) (id : ℕ) : Option SubProcData :=
  st.subProcData.lookup id

/-- Replace one entry of the node map. -/
def updateSubProc (st : NodeState) (id : ℕ) (d : SubProcData) : NodeState :=
  { st with subProcData := st.subProcData.map (fun p => if p.1 = id then (p.1, d) else p) }

/-- Environment of one training run: UI channel selection and the outcome of
every external interaction. -/
structure Env where
  selection : ℕ → Bool
  baseDirOk : Bool
  outDirOk : Bool
  outDirPath : String
  writeDataOk : Bool
  configOpenOk : Bool
  configWriteOk : Bool
  procStarted : Bool
  procExitCode : ℤ
  weightsRead : Option Mat
  sphereRead : Option Mat
  mkUnmixing : Mat → Mat → Mat
  invert : Mat → Mat
  saveUnmixOk : Bool
  saveMixOk : Bool

/-- ICARunInfo (ICANode.h lines 230-239): the ephemeral record of one run. -/
structure ICARunInfo where
  subProc : ℕ
  nSamples : ℕ
  nChannels : ℕ
  configPath : String
  op : ICAOperation

/-- Result of one pipeline stage together with the node state and run info
it leaves behind. -/
inductive RunResult where
  | ok : RunResult
  | fail : String → RunResult

/-- Type of one pipeline stage. -/
def Stage : Type := Env → NodeState → ICARunInfo → RunResult × NodeState × ICARunInfo

/-- prepareICA (ICANode.cpp lines 657-736): fresh operation, snapshot the
selected subprocessor, collect the enabled channels from the UI selection,
require at least two, and establish the output directory. -/
def prepareICA : Stage := fun env st info =>
  let info1 := { info with op := ICAOperation.noop, subProc := st.currSubProc }
  if st.currSubProc = 0 then (RunResult.fail "No subprocessor selected", st, info1)
  else
    match findSubProc st st.currSubProc with
    | none => (RunResult.fail "Subprocessor no longer exists", st, info1)
    | some d =>
      let enabled : Finset ℕ :=
        ((List.range d.channelInds.length).filter
          (fun c => env.selection (d.channelInds.getD c 0))).toFinset
      let info2 := { info1 with op := { info1.op with enabledChannels := enabled } }
      if enabled.card < 2 then
        (RunResult.fail "At least 2 channels must be enabled to run ICA", st, info2)
      else
        let info3 := { info2 with nChannels := enabled.card }
        if !env.baseDirOk then
          (RunResult.fail "Failed to make ICA runs directory", st, info3)
        else if !env.outDirOk then
          (RunResult.fail "Failed to make output directory", st, info3)
        else (RunResult.ok, st, { info3 with configPath := env.outDirPath })

/-- writeCacheData (ICANode.cpp lines 738-779): require the cache to be full
and export the enabled channels to the input file.  A missing map entry
behaves like the not-full default-constructed cache the source operator[]
would create; the side effect of inserting that default entry is not
modelled (prepareICA has just verified the entry exists). -/
def writeCacheData : Stage := fun env st info =>
  match findSubProc st info.subProc with
  | none => (RunResult.fail "Data cache not full yet", st, info)
  | some d =>
    if !d.cacheFull then (RunResult.fail "Data cache not full yet", st, info)
    else if env.writeDataOk then (RunResult.ok, st, { info with nSamples := d.cacheNumSamples })
    else (RunResult.fail "Failed to write data to input file", st, info)

/-- performICA (ICANode.cpp lines 781-840): write the solver config file,
launch the external process and map launch failure or a nonzero exit code to
a pipeline failure. -/
def performICA : Stage := fun env st info =>
  if !env.configOpenOk then (RunResult.fail "Failed to open binica config file", st, info)
  else if !env.configWriteOk then (RunResult.fail "Failed to write to config file", st, info)
  else if !env.procStarted then (RunResult.fail "ICA failed to start", st, info)
  else if env.procExitCode ≠ 0 then
    (RunResult.fail "ICA failed with nonzero exit code", st, info)
  else (RunResult.ok, st, info)

/-- Common tail of processResults: store the unmixing matrix and its
inverse as the mixing matrix, then persist both. -/
def finishResults (env : Env) (st : NodeState) (info : ICARunInfo) (unmix : Mat) :
    RunResult × NodeState × ICARunInfo :=
  let newOp : ICAOperation :=
    { info.op with
      unmixing := some unmix
      mixing := some (env.invert unmix) }
  let info1 := { info with op := newOp }
  if !env.saveUnmixOk then (RunResult.fail "Failed to save unmixing matrix", st, info1)
  else if !env.saveMixOk then (RunResult.fail "Failed to save mixing matrix", st, info1)
  else (RunResult.ok, st, info1)

/-- processResults (ICANode.cpp lines 842-897): unless an unmixing matrix is
already present, read the weight and sphere matrices and combine them; then
derive the mixing matrix and persist both matrices. -/
def processResults : Stage := fun env st info =>
  match info.op.unmixing with
  | some unmix => finishResults env st info unmix
  | none =>
    match env.weightsRead with
    | none => (RunResult.fail "Failed to read weight matrix", st, info)
    | some w =>
      match env.sphereRead with
      | none => (RunResult.fail "Failed to read sphere matrix", st, info)
      | some sph => finishResults env st info (env.mkUnmixing w sph)

/-- setRejectedCompsBasedOnCurrent (ICANode.cpp lines 899-931): copy the
rejected components of the currently installed operation when it is a real
operation, and reject component 0 otherwise. -/
def setRejectedCompsBasedOnCurrent : Stage := fun _ st info =>
  match findSubProc st info.subProc with
  | none => (RunResult.fail "Subprocessor does not exist", st, info)
  | some d =>
    if d.icaOp.isNoop then
      (RunResult.ok, st, { info with op := { info.op with
        rejectedComponents := insert 0 info.op.rejectedComponents } })
    else
      (RunResult.ok, st, { info with op := { info.op with
        rejectedComponents := d.icaOp.rejectedComponents } })

/-- setNewICAOp (ICANode.cpp lines 933-975): fail when the subprocessor is
gone or the operation needs more channels than are present; fall back to
rejecting component 0 when the rejected set names nonexistent components;
swap the operation in and record the config path. -/
def setNewICAOp : Stage := fun _ st info =>
  match findSubProc st info.subProc with
  | none => (RunResult.fail "Subprocessor no longer exists", st, info)
  | some d =>
    if d.channelInds.length ≤ sortedSetGetLast info.op.enabledChannels then
      (RunResult.fail "Operation needs more channels than are present", st, info)
    else
      let newOp :=
        if info.op.enabledChannels.card ≤ sortedSetGetLast info.op.rejectedComponents then
          { info.op with rejectedComponents := ({0} : Finset ℕ) }
        else info.op
      (RunResult.ok,
        updateSubProc st info.subProc
          { d with icaOp := newOp, icaConfigPath := info.configPath },
        { info with op := d.icaOp })

/-- The six pipeline stages, in the order of ICANode.run. -/
def icaStages : List Stage :=
  [prepareICA, writeCacheData, performICA, processResults,
    setRejectedCompsBasedOnCurrent, setNewICAOp]

/-- The stage loop of ICANode.run (ICANode.cpp lines 630-652): run the
stages in order; on the first failure emit a single status message and stop,
skipping all later stages. -/
def runStages (env : Env) : List Stage → NodeState → ICARunInfo → List String × NodeState
  | [], st, _ => ([], st)
  | f :: rest, st, info =>
    match f env st info with
    | (RunResult.ok, st2, info2) => runStages env rest st2 info2
    | (RunResult.fail m, st2, _) => (["ICA failed: " ++ m], st2)

/-- ICANode.run: execute the pipeline on a fresh ICARunInfo, returning the
status messages emitted and the final node state. -/
def runICA (env : Env) (st : NodeState) : List String × NodeState :=
  runStages env icaStages st ⟨0, 0, 0, "", ICAOperation.noop⟩

/-- ICANode.startICA (ICANode.cpp lines 65-74) on the thread-running flag:
returns whether a run was started together with the new flag value. -/
def startICA (threadRunning : Bool) : Bool × Bool :=
  if threadRunning then (false, threadRunning) else (true, true)

/-- ICANode.readICAOperation (ICANode.cpp lines 568-585): the returned
operation, when present, comes with the read lock held (second component);
a missing subprocessor or a no-op operation yields no operation and no lock
held. -/
def readICAOperation (st : NodeState) : Option ICAOperation × Bool :=
  match findSubProc st st.currSubProc with
  | none => (none, false)
  | some d => if d.icaOp.isNoop then (none, false) else (some d.icaOp, true)

/-- ICANode.writeICAOperation (ICANode.cpp lines 587-604): same shape as
readICAOperation with the write lock. -/
def writeICAOperation (st : NodeState) : Option ICAOperation × Bool :=
  match findSubProc st st.currSubProc with
  | none => (none, false)
  | some d => if d.icaOp.isNoop then (none, false) else (some d.icaOp, true)

/-- C5: training is single-flight per node: when the training thread is
already running, startICA returns false and starts nothing; otherwise it
starts the background thread and returns true. -/
theorem startICA_single_flight (b : Bool) :
    (b = true → (startICA b).1 = false ∧ (startICA b).2 = b)
    ∧ (b = false → (startICA b).1 = true ∧ (startICA b).2 = true) := by
  cases b <;> simp [startICA]

/-- Witness for startICA_single_flight with a run already in progress. -/
theorem startICA_single_flight_witness :
    (startICA true).1 = false ∧ (startICA true).2 = true :=
  (startICA_single_flight true).1 rfl

/-- C9: readICAOperation and writeICAOperation never hand a no-op operation
to the caller: with no current subprocessor, or with a no-op operation
installed, they return no operation and no lock held; a returned operation
is always a real (non-no-op) operation with the lock held. -/
theorem icaOperation_access_no_noop (st : NodeState) (op : ICAOperation) :
    ((findSubProc st st.currSubProc = none
        ∨ ∃ d, findSubProc st st.currSubProc = some d ∧ d.icaOp.isNoop = true) →
      readICAOperation st = (none, false) ∧ writeICAOperation st = (none, false))
    ∧ ((readICAOperation st).1 = some op →
        op.isNoop = false ∧ (readICAOperation st).2 = true)
    ∧ ((writeICAOperation st).1 = some op →
        op.isNoop = false ∧ (writeICAOperation st).2 = true) := by
  have hsame : writeICAOperation st = readICAOperation st := rfl
  have hmain : ∀ op2 : ICAOperation, (readICAOperation st).1 = some op2 →
      op2.isNoop = false ∧ (readICAOperation st).2 = true := by
    intro op2 hsome
    cases hfd : findSubProc st st.currSubProc with
    | none =>
      unfold readICAOperation at hsome
      rw [hfd] at hsome
      simp at hsome
    | some d =>
      unfold readICAOperation at hsome ⊢
      rw [hfd] at hsome ⊢
      dsimp only at hsome ⊢
      by_cases hno : d.icaOp.isNoop = true
      · rw [if_pos hno] at hsome
        simp at hsome
      · rw [if_neg hno] at hsome ⊢
        simp only [Option.some.injEq] at hsome
        subst hsome
        exact ⟨Bool.eq_false_iff.mpr (fun h => hno h), rfl⟩
  refine ⟨?_, hmain op, fun h => by rw [hsame] at h ⊢; exact hmain op h⟩
  rintro (hnone | ⟨d, hd, hnoop⟩)
  · constructor <;> simp [readICAOperation, writeICAOperation, hnone]
  · constructor <;> simp [readICAOperation, writeICAOperation, hd, hnoop]

/-- Node state with one subprocessor holding a no-op operation. -/
def stNoop : NodeState := ⟨1, [(1, ⟨[0, 1], true, 2, ICAOperation.noop, ""⟩)]⟩

/-- Witness for icaOperation_access_no_noop at a no-op operation. -/
theorem icaOperation_access_no_noop_witness :
    readICAOperation stNoop = (none, false) ∧ writeICAOperation stNoop = (none, false) :=
  (icaOperation_access_no_noop stNoop ICAOperation.noop).1 (Or.inr ⟨_, rfl, rfl⟩)

/-- Environment in which every external interaction succeeds. -/
def envBase : Env :=
  ⟨fun _ => true, true, true, "outdir", true, true, true, true, 0, none, none,
    fun w _ => w, fun m2 => m2, true, true⟩

/-- A previously installed real operation on enabled channels 0 and 1 with
component 1 rejected. -/
def opPrev : ICAOperation := ⟨none, none, {0, 1}, {1}⟩

/-- Node state holding opPrev on subprocessor 1. -/
def stPrev : NodeState := ⟨1, [(1, ⟨[0, 1, 2], true, 2, opPrev, ""⟩)]⟩

/-- Run info for a new operation on the different enabled-channel set
0, 1, 2 of the same subprocessor. -/
def infoNew : ICARunInfo := ⟨1, 0, 3, "", ⟨none, none, {0, 1, 2}, ∅⟩⟩

/-- C4 (amended): during a training run the rejected-component selection of
the previous operation for the same subprocessor is carried into the new
operation whenever that previous operation is a real (non-no-op) operation,
regardless of its enabled-channel set; only when the previous operation is
a no-op does the new operation default to rejecting exactly component 0.
The stage succeeds and leaves the node state untouched whenever the
subprocessor exists. -/
theorem setRejectedComps_carry_forward (env : Env) (st : NodeState) (info : ICARunInfo)
    (d : SubProcData) (hd : findSubProc st info.subProc = some d) :
    (setRejectedCompsBasedOnCurrent env st info).1 = RunResult.ok
    ∧ (setRejectedCompsBasedOnCurrent env st info).2.1 = st
    ∧ (d.icaOp.isNoop = false →
        (setRejectedCompsBasedOnCurrent env st info).2.2.op.rejectedComponents
          = d.icaOp.rejectedComponents)
    ∧ (d.icaOp.isNoop = true → info.op.rejectedComponents = ∅ →
        (setRejectedCompsBasedOnCurrent env st info).2.2.op.rejectedComponents
          = ({0} : Finset ℕ)) := by
  unfold setRejectedCompsBasedOnCurrent
  rw [hd]
  dsimp only
  by_cases hno : d.icaOp.isNoop = true
  · rw [if_pos hno]
    refine ⟨rfl, rfl, ?_, ?_⟩
    · intro hfalse
      rw [hno] at hfalse
      exact absurd hfalse (by simp)
    · intro _ hempty
      simp [hempty]
  · rw [if_neg hno]
    exact ⟨rfl, rfl, fun _ => rfl, fun htrue => absurd htrue hno⟩

/-- C4 counterexample: the previously installed operation opPrev is real but
uses an enabled-channel set different from the new operation infoNew, and
its rejected set 1 is still copied into the new operation instead of the
default component 0 that the original claim requires for differing
channel sets. -/
theorem setRejectedComps_counterexample :
    opPrev.enabledChannels ≠ infoNew.op.enabledChannels
    ∧ opPrev.isNoop = false
    ∧ (setRejectedCompsBasedOnCurrent envBase stPrev infoNew).2.2.op.rejectedComponents
        = ({1} : Finset ℕ)
    ∧ ({1} : Finset ℕ) ≠ ({0} : Finset ℕ) := by
  refine ⟨by decide, by decide, by decide, by decide⟩

/-- Witness for setRejectedComps_carry_forward at the concrete state
stPrev. -/
theorem setRejectedComps_carry_forward_witness :
    (setRejectedCompsBasedOnCurrent envBase stPrev infoNew).1 = RunResult.ok
    ∧ (setRejectedCompsBasedOnCurrent envBase stPrev infoNew).2.1 = stPrev :=
  ⟨(setRejectedComps_carry_forward envBase stPrev infoNew _ rfl).1,
    (setRejectedComps_carry_forward envBase stPrev infoNew _ rfl).2.1⟩

theorem runResult_fail_ne_ok (m : String) : RunResult.fail m ≠ RunResult.ok :=
  fun h => RunResult.noConfusion h

/-- prepareICA never modifies the node state. -/
theorem prepareICA_state (env : Env) (st : NodeState) (info : ICARunInfo) :
    (prepareICA env st info).2.1 = st := by
  unfold prepareICA
  try dsimp only
  repeat' split
  all_goals rfl

/-- writeCacheData never modifies the node state. -/
theorem writeCacheData_state (env : Env) (st : NodeState) (info : ICARunInfo) :
    (writeCacheData env st info).2.1 = st := by
  unfold writeCacheData
  try dsimp only
  repeat' split
  all_goals rfl

/-- performICA never modifies the node state. -/
theorem performICA_state (env : Env) (st : NodeState) (info : ICARunInfo) :
    (performICA env st info).2.1 = st := by
  unfold performICA
  try dsimp only
  repeat' split
  all_goals rfl

/-- finishResults never modifies the node state. -/
theorem finishResults_state (env : Env) (st : NodeState) (info : ICARunInfo) (unmix : Mat) :
    (finishResults env st info unmix).2.1 = st := by
  unfold finishResults
  try dsimp only
  repeat' split
  all_goals rfl

/-- processResults never modifies the node state. -/
theorem processResults_state (env : Env) (st : NodeState) (info : ICARunInfo) :
    (processResults env st info).2.1 = st := by
  unfold processResults
  try dsimp only
  repeat' split
  all_goals first
  | rfl
  | apply finishResults_state

/-- setRejectedCompsBasedOnCurrent never modifies the node state. -/
theorem setRejected_state (env : Env) (st : NodeState) (info : ICARunInfo) :
    (setRejectedCompsBasedOnCurrent env st info).2.1 = st := by
  unfold setRejectedCompsBasedOnCurrent
  try dsimp only
  repeat' split
  all_goals rfl

/-- A successful prepareICA leaves at least two enabled channels in the
operation being built. -/
theorem prepareICA_ok (env : Env) (st : NodeState) (info : ICARunInfo) :
    (prepareICA env st info).1 = RunResult.ok →
    2 ≤ (prepareICA env st info).2.2.op.enabledChannels.card := by
  unfold prepareICA
  try dsimp only
  repeat' split
  all_goals intro h
  all_goals first
  | exact absurd h (runResult_fail_ne_ok _)
  | (dsimp only; omega)

/-- writeCacheData does not modify the operation being built. -/
theorem writeCacheData_op (env : Env) (st : NodeState) (info : ICARunInfo) :
    (writeCacheData env st info).2.2.op = info.op := by
  unfold writeCacheData
  try dsimp only
  repeat' split
  all_goals rfl

/-- performICA does not modify the run info at all. -/
theorem performICA_info (env : Env) (st : NodeState) (info : ICARunInfo) :
    (performICA env st info).2.2 = info := by
  unfold performICA
  try dsimp only
  repeat' split
  all_goals rfl

/-- finishResults preserves the enabled channels and the identifying fields
of the run info. -/
theorem finishResults_fields (env : Env) (st : NodeState) (info : ICARunInfo) (unmix : Mat) :
    (finishResults env st info unmix).2.2.op.enabledChannels = info.op.enabledChannels
    ∧ (finishResults env st info unmix).2.2.subProc = info.subProc
    ∧ (finishResults env st info unmix).2.2.configPath = info.configPath := by
  unfold finishResults
  try dsimp only
  repeat' split
  all_goals exact ⟨rfl, rfl, rfl⟩

/-- processResults preserves the enabled channels and the identifying fields
of the run info. -/
theorem processResults_fields (env : Env) (st : NodeState) (info : ICARunInfo) :
    (processResults env st info).2.2.op.enabledChannels = info.op.enabledChannels
    ∧ (processResults env st info).2.2.subProc = info.subProc
    ∧ (processResults env st info).2.2.configPath = info.configPath := by
  unfold processResults
  try dsimp only
  repeat' split
  all_goals first
  | exact ⟨rfl, rfl, rfl⟩
  | apply finishResults_fields

/-- A successful finishResults leaves both matrices present. -/
theorem finishResults_ok_matrices (env : Env) (st : NodeState) (info : ICARunInfo)
    (unmix : Mat) :
    (finishResults env st info unmix).1 = RunResult.ok →
    (finishResults env st info unmix).2.2.op.unmixing.isSome = true
    ∧ (finishResults env st info unmix).2.2.op.mixing.isSome = true := by
  unfold finishResults
  try dsimp only
  repeat' split
  all_goals intro h
  all_goals first
  | exact absurd h (runResult_fail_ne_ok _)
  | exact ⟨rfl, rfl⟩

/-- A successful processResults leaves both matrices present. -/
theorem processResults_ok_matrices (env : Env) (st : NodeState) (info : ICARunInfo) :
    (processResults env st info).1 = RunResult.ok →
    (processResults env st info).2.2.op.unmixing.isSome = true
    ∧ (processResults env st info).2.2.op.mixing.isSome = true := by
  unfold processResults
  try dsimp only
  repeat' split
  all_goals first
  | (intro h; exact absurd h (runResult_fail_ne_ok _))
  | apply finishResults_ok_matrices

/-- setRejectedCompsBasedOnCurrent changes only the rejected-component set
of the operation being built, and the identifying fields of the run info
not at all. -/
theorem setRejected_fields (env : Env) (st : NodeState) (info : ICARunInfo) :
    (setRejectedCompsBasedOnCurrent env st info).2.2.op.enabledChannels
      = info.op.enabledChannels
    ∧ (setRejectedCompsBasedOnCurrent env st info).2.2.op.unmixing = info.op.unmixing
    ∧ (setRejectedCompsBasedOnCurrent env st info).2.2.op.mixing = info.op.mixing
    ∧ (setRejectedCompsBasedOnCurrent env st info).2.2.subProc = info.subProc
    ∧ (setRejectedCompsBasedOnCurrent env st info).2.2.configPath = info.configPath := by
  unfold setRejectedCompsBasedOnCurrent
  try dsimp only
  repeat' split
  all_goals exact ⟨rfl, rfl, rfl, rfl, rfl⟩

/-- Anatomy of setNewICAOp: on success the node state becomes the old state
with the target entry holding an operation that shares the enabled channels
and matrices of the built operation, and the config path recorded; on
failure the node state is untouched. -/
theorem setNewICAOp_anatomy (env : Env) (st : NodeState) (info : ICARunInfo) :
    ((setNewICAOp env st info).1 = RunResult.ok →
      ∃ d op2, findSubProc st info.subProc = some d
        ∧ (setNewICAOp env st info).2.1
            = updateSubProc st info.subProc
                { d with icaOp := op2, icaConfigPath := info.configPath }
        ∧ op2.enabledChannels = info.op.enabledChannels
        ∧ op2.unmixing = info.op.unmixing
        ∧ op2.mixing = info.op.mixing)
    ∧ (∀ m, (setNewICAOp env st info).1 = RunResult.fail m →
        (setNewICAOp env st info).2.1 = st) := by
  unfold setNewICAOp
  cases hfd : findSubProc st info.subProc with
  | none =>
    dsimp only
    exact ⟨fun h => absurd h (runResult_fail_ne_ok _), fun m _ => rfl⟩
  | some d =>
    dsimp only
    by_cases hch : d.channelInds.length ≤ sortedSetGetLast info.op.enabledChannels
    · rw [if_pos hch]
      exact ⟨fun h => absurd h (runResult_fail_ne_ok _), fun m _ => rfl⟩
    · rw [if_neg hch]
      constructor
      · intro _
        by_cases hrej : info.op.enabledChannels.card
            ≤ sortedSetGetLast info.op.rejectedComponents
        · refine ⟨d, { info.op with rejectedComponents := ({0} : Finset ℕ) },
            rfl, ?_, rfl, rfl, rfl⟩
          try dsimp only
          rw [if_pos hrej]
        · refine ⟨d, info.op, rfl, ?_, rfl, rfl, rfl⟩
          try dsimp only
          rw [if_neg hrej]
      · intro m hm
        dsimp only at hm
        exact RunResult.noConfusion hm

/-- C6: if any stage of the training pipeline fails, all later stages are
skipped, a single descriptive status message is surfaced, and every
subprocessor keeps its previously installed operation and config path; only
a run in which every stage succeeds installs anything, and what it installs
is a fully built operation (at least two enabled channels, both matrices
present) swapped into one map entry together with its config path. -/
theorem run_pipeline_atomic (env : Env) (st : NodeState) :
    ((runICA env st).1 ≠ [] →
      (runICA env st).2 = st ∧ ∃ m, (runICA env st).1 = ["ICA failed: " ++ m])
    ∧ ((runICA env st).1 = [] →
      ∃ sp d op2 path, findSubProc st sp = some d
        ∧ (runICA env st).2
            = updateSubProc st sp { d with icaOp := op2, icaConfigPath := path }
        ∧ 2 ≤ op2.enabledChannels.card
        ∧ op2.unmixing.isSome = true
        ∧ op2.mixing.isSome = true) := by
  rcases h1 : prepareICA env st ⟨0, 0, 0, "", ICAOperation.noop⟩ with ⟨r1, st1, info1⟩
  have hst1 : st1 = st := by
    have h := prepareICA_state env st ⟨0, 0, 0, "", ICAOperation.noop⟩
    rw [h1] at h
    exact h
  rw [hst1] at h1
  cases r1 with
  | fail m =>
    have hrun : runICA env st = (["ICA failed: " ++ m], st) := by
      simp only [runICA, icaStages, runStages, h1]
    rw [hrun]
    exact ⟨fun _ => ⟨rfl, m, rfl⟩, fun hnil => absurd hnil (by simp)⟩
  | ok =>
    have hEn1 : 2 ≤ info1.op.enabledChannels.card := by
      have h := prepareICA_ok env st ⟨0, 0, 0, "", ICAOperation.noop⟩
      rw [h1] at h
      exact h rfl
    rcases h2 : writeCacheData env st info1 with ⟨r2, st2, info2⟩
    have hst2 : st2 = st := by
      have h := writeCacheData_state env st info1
      rw [h2] at h
      exact h
    rw [hst2] at h2
    cases r2 with
    | fail m =>
      have hrun : runICA env st = (["ICA failed: " ++ m], st) := by
        simp only [runICA, icaStages, runStages, h1, h2]
      rw [hrun]
      exact ⟨fun _ => ⟨rfl, m, rfl⟩, fun hnil => absurd hnil (by simp)⟩
    | ok =>
      have hOp2 : info2.op = info1.op := by
        have h := writeCacheData_op env st info1
        rw [h2] at h
        exact h
      have hEn2 : 2 ≤ info2.op.enabledChannels.card := by
        rw [hOp2]
        exact hEn1
      rcases h3 : performICA env st info2 with ⟨r3, st3, info3⟩
      have hst3 : st3 = st := by
        have h := performICA_state env st info2
        rw [h3] at h
        exact h
      rw [hst3] at h3
      cases r3 with
      | fail m =>
        have hrun : runICA env st = (["ICA failed: " ++ m], st) := by
          simp only [runICA, icaStages, runStages, h1, h2, h3]
        rw [hrun]
        exact ⟨fun _ => ⟨rfl, m, rfl⟩, fun hnil => absurd hnil (by simp)⟩
      | ok =>
        have hInfo3 : info3 = info2 := by
          have h := performICA_info env st info2
          rw [h3] at h
          exact h
        have hEn3 : 2 ≤ info3.op.enabledChannels.card := by
          rw [hInfo3]
          exact hEn2
        rcases h4 : processResults env st info3 with ⟨r4, st4, info4⟩
        have hst4 : st4 = st := by
          have h := processResults_state env st info3
          rw [h4] at h
          exact h
        rw [hst4] at h4
        cases r4 with
        | fail m =>
          have hrun : runICA env st = (["ICA failed: " ++ m], st) := by
            simp only [runICA, icaStages, runStages, h1, h2, h3, h4]
          rw [hrun]
          exact ⟨fun _ => ⟨rfl, m, rfl⟩, fun hnil => absurd hnil (by simp)⟩
        | ok =>
          have hEn4 : 2 ≤ info4.op.enabledChannels.card := by
            have h := (processResults_fields env st info3).1
            rw [h4] at h
            dsimp only at h
            rw [h]
            exact hEn3
          have hMat4 : info4.op.unmixing.isSome = true ∧ info4.op.mixing.isSome = true := by
            have h := processResults_ok_matrices env st info3
            rw [h4] at h
            exact h rfl
          rcases h5 : setRejectedCompsBasedOnCurrent env st info4 with ⟨r5, st5, info5⟩
          have hst5 : st5 = st := by
            have h := setRejected_state env st info4
            rw [h5] at h
            exact h
          rw [hst5] at h5
          cases r5 with
          | fail m =>
            have hrun : runICA env st = (["ICA failed: " ++ m], st) := by
              simp only [runICA, icaStages, runStages, h1, h2, h3, h4, h5]
            rw [hrun]
            exact ⟨fun _ => ⟨rfl, m, rfl⟩, fun hnil => absurd hnil (by simp)⟩
          | ok =>
            have hf5 := setRejected_fields env st info4
            rw [h5] at hf5
            dsimp only at hf5
            have hEn5 : 2 ≤ info5.op.enabledChannels.card := by
              rw [hf5.1]
              exact hEn4
            have hUn5 : info5.op.unmixing.isSome = true := by
              rw [hf5.2.1]
              exact hMat4.1
            have hMx5 : info5.op.mixing.isSome = true := by
              rw [hf5.2.2.1]
              exact hMat4.2
            rcases h6 : setNewICAOp env st info5 with ⟨r6, st6, info6⟩
            have han := setNewICAOp_anatomy env st info5
            rw [h6] at han
            dsimp only at han
            cases r6 with
            | fail m =>
              have hst6 : st6 = st := han.2 m rfl
              rw [hst6] at h6
              have hrun : runICA env st = (["ICA failed: " ++ m], st) := by
                simp only [runICA, icaStages, runStages, h1, h2, h3, h4, h5, h6]
              rw [hrun]
              exact ⟨fun _ => ⟨rfl, m, rfl⟩, fun hnil => absurd hnil (by simp)⟩
            | ok =>
              obtain ⟨d, op2, hfd, hst6, hen, hun, hmx⟩ := han.1 rfl
              have hrun : runICA env st = ([], st6) := by
                simp only [runICA, icaStages, runStages, h1, h2, h3, h4, h5, h6]
              rw [hrun]
              constructor
              · intro hne
                exact absurd rfl hne
              · intro _
                refine ⟨info5.subProc, d, op2, info5.configPath, hfd, hst6, ?_, ?_, ?_⟩
                · rw [hen]
                  exact hEn5
                · rw [hun]
                  exact hUn5
                · rw [hmx]
                  exact hMx5

/-- Node state with no subprocessor selected. -/
def stEmpty : NodeState := ⟨0, []⟩

/-- Witness for run_pipeline_atomic: with no subprocessor selected the run
fails at the first stage and the node state is untouched. -/
theorem run_pipeline_atomic_witness :
    (runICA envBase stEmpty).1 ≠ [] ∧ (runICA envBase stEmpty).2 = stEmpty := by
  have hne : (runICA envBase stEmpty).1 ≠ [] := by
    simp [runICA, icaStages, runStages, prepareICA, stEmpty]
  exact ⟨hne, ((run_pipeline_atomic envBase stEmpty).1 hne).1⟩

/-!
Model of the cache-downsampling loop of process() (ICANode.cpp lines
150-161): for (s = dsOffset; s < nSamps; s += dsStride) copySample; then
dsOffset = s - nSamps.
-/

/-- The downsampling loop: starting at offset, take every stride-th sample
index below n; return the indices taken and the next buffer offset, which
the source computes as the final loop variable minus n.  The source
guarantees stride is at least 1 (jmax with 1 in updateSettings); a zero
stride is mapped to the empty run to keep the definition total. -/
def dsRun (stride offset n : ℕ) : List ℕ × ℕ :=
  if h : offset < n ∧ 0 < stride then
    let p := dsRun stride (offset + stride) n
    (offset :: p.1, p.2)
  else ([], offset - n)
termination_by n - offset
decreasing_by omega

theorem dsRun_step_pos (stride offset n : ℕ) (h : offset < n ∧ 0 < stride) :
    dsRun stride offset n
      = (offset :: (dsRun stride (offset + stride) n).1,
          (dsRun stride (offset + stride) n).2) := by
  rw [dsRun.eq_def, dif_pos h]

theorem dsRun_step_neg (stride offset n : ℕ) (h : ¬(offset < n ∧ 0 < stride)) :
    dsRun stride offset n = ([], offset - n) := by
  rw [dsRun.eq_def, dif_neg h]

/-- Invariants of the downsampling loop, by induction on the remaining
sample count. -/
theorem dsRun_spec_aux (stride n : ℕ) (hs : 0 < stride) :
    ∀ (fuel : ℕ) (offset : ℕ), n - offset ≤ fuel →
      (dsRun stride offset n).2 + n = offset + stride * (dsRun stride offset n).1.length
      ∧ (offset < n → (dsRun stride offset n).2 < stride)
      ∧ (¬offset < n → (dsRun stride offset n).2 = offset - n)
      ∧ (dsRun stride offset n).1.Nodup
      ∧ (∀ s, s ∈ (dsRun stride offset n).1
          ↔ ((∃ k, s = offset + stride * k) ∧ s < n)) := by
  intro fuel
  induction fuel with
  | zero =>
    intro offset hf
    have hno : ¬offset < n := by omega
    rw [dsRun_step_neg stride offset n (fun hc => hno hc.1)]
    refine ⟨by simp; omega, fun h => absurd h hno, fun _ => rfl, List.nodup_nil, ?_⟩
    intro s
    simp only [List.not_mem_nil, false_iff]
    rintro ⟨⟨k, hk⟩, hsn⟩
    omega
  | succ fuel ih =>
    intro offset hf
    by_cases ho : offset < n
    · have hstep := dsRun_step_pos stride offset n ⟨ho, hs⟩
      obtain ⟨A2, B2, C2, D2, E2⟩ := ih (offset + stride) (by omega)
      rw [hstep]
      refine ⟨?_, ?_, ?_, ?_, ?_⟩
      · simp only [List.length_cons]
        rw [Nat.mul_succ]
        omega
      · intro _
        by_cases ho2 : offset + stride < n
        · exact B2 ho2
        · rw [C2 ho2]
          omega
      · intro h
        exact absurd ho h
      · refine List.nodup_cons.mpr ⟨?_, D2⟩
        intro hmem
        obtain ⟨⟨k, hk⟩, _⟩ := (E2 offset).mp hmem
        omega
      · intro s
        rw [List.mem_cons, E2 s]
        constructor
        · rintro (rfl | ⟨⟨k, hk⟩, hsn⟩)
          · exact ⟨⟨0, by omega⟩, ho⟩
          · refine ⟨⟨k + 1, ?_⟩, hsn⟩
            rw [Nat.mul_succ]
            omega
        · rintro ⟨⟨k, hk⟩, hsn⟩
          cases k with
          | zero =>
            left
            omega
          | succ k =>
            right
            refine ⟨⟨k, ?_⟩, hsn⟩
            rw [Nat.mul_succ] at hk
            omega
    · rw [dsRun_step_neg stride offset n (fun hc => ho hc.1)]
      refine ⟨by simp; omega, fun h => absurd h ho, fun _ => rfl, List.nodup_nil, ?_⟩
      intro s
      simp only [List.not_mem_nil, false_iff]
      rintro ⟨⟨k, hk⟩, hsn⟩
      omega

/-- C10: with a positive stride and the downsample offset inside [0, stride)
as the invariant states, one process() cache-filling pass over a buffer of n
samples takes exactly the sample indices offset, offset + stride, ... below
n, each exactly once, and leaves a new offset again inside [0, stride) that
continues the same arithmetic progression across the buffer boundary:
next offset + n equals offset + stride times the number of samples taken,
so no sample of the input stream is taken twice or skipped. -/
theorem process_downsample_stride (stride offset n s : ℕ) (hs : 0 < stride)
    (ho : offset < stride) :
    (dsRun stride offset n).2 < stride
    ∧ (dsRun stride offset n).2 + n = offset + stride * (dsRun stride offset n).1.length
    ∧ (dsRun stride offset n).1.Nodup
    ∧ (s ∈ (dsRun stride offset n).1 ↔ ((∃ k, s = offset + stride * k) ∧ s < n)) := by
  obtain ⟨A, B, C, D, E⟩ := dsRun_spec_aux stride n hs (n - offset) offset le_rfl
  refine ⟨?_, A, D, E s⟩
  by_cases hlt : offset < n
  · exact B hlt
  · rw [C hlt]
    omega

/-- Witness for process_downsample_stride at stride 3, offset 1, buffer
length 7. -/
theorem process_downsample_stride_witness :
    (0 : ℕ) < 3 ∧ (1 : ℕ) < 3 ∧ (dsRun 3 1 7).2 < 3
    ∧ (dsRun 3 1 7).2 + 7 = 1 + 3 * (dsRun 3 1 7).1.length := by
  refine ⟨by decide, by decide, ?_, ?_⟩
  · exact (process_downsample_stride 3 1 7 0 (by decide) (by decide)).1
  · exact (process_downsample_stride 3 1 7 0 (by decide) (by decide)).2.1

end ICA
